import Mathlib

/-!
# The SPLICE drum-machine decoder (`decoder.go`)

A shallow embedding of `DecodeFile`, `Pattern.String` and `track.String`.

* A Go `byte` is a `Fin 256`; a Go `string` or `[]byte` is a `List Byte`.
* `int` and `int64` are 64 bits wide: an `int64` is an `Int` kept in range by
  `wrapInt64`, a `uint32` is a `Nat` kept in range by `% 2^32`.
* A `float32` is carried as its IEEE-754 bit pattern (a `Nat` below `2^32`); the
  text `strconv.FormatFloat` makes of it is a parameter `formatTempo`.  `binary.Read`
  stores a `float32` struct field through a `float64` (`float32Stored`), which sets
  the quiet bit of a signalling NaN.
* `bytes.Reader` is the list of bytes not yet read.  `binary.Read` asks
  `io.ReadFull` for the whole size of the value: when fewer bytes are left it
  takes them all, reports an error and leaves the value untouched.
  `DecodeFile` drops every such error.
-/

namespace drum

/-- Go's `byte`. -/
abbrev Byte := Fin 256

/-- The byte of an ASCII character. -/
def charByte (c : Char) : Byte := ⟨c.toNat % 256, Nat.mod_lt _ (by decide)⟩

/-- The bytes of an ASCII string literal of the source. -/
def ascii (s : String) : List Byte := s.toList.map charByte

/-- The `[16]byte` array type of `track.Steps`. -/
abbrev Steps := { l : List Byte // l.length = 16 }

/-- The zero value of `[16]byte`. -/
def Steps.zero : Steps := ⟨List.replicate 16 0, by decide⟩

/-- The Go `track` struct. -/
structure track where
  ID : Byte
  Name : List Byte
  Steps : Steps
deriving DecidableEq

/-- The Go `Pattern` struct; `Tempo` holds the bits of the `float32`. -/
structure Pattern where
  Version : List Byte
  Tempo : Nat
  Tracks : List track
deriving DecidableEq

/-- What a call of `DecodeFile` ends in: `return pattern, nil`, `return nil, err`
with the text of `err`, or a run-time panic (slice bounds out of range). -/
inductive Outcome where
  | ok (p : Pattern)
  | err (msg : String)
  | panic
deriving DecidableEq

/-! ## `encoding/binary` and `bytes` -/

/-- The value `binary.BigEndian` gives to a byte string. -/
def beUint (bs : List Byte) : Nat :=
  bs.foldl (fun acc b => acc * 256 + b.val) 0

/-- The value `binary.LittleEndian` gives to a byte string. -/
def leUint (bs : List Byte) : Nat :=
  bs.foldr (fun b acc => b.val + 256 * acc) 0

/-- The bits of the `float32` that `binary.Read` stores in a struct field, from the
bits `u` it has read: the store goes through `reflect` as
`float32(float64(math.Float32frombits(u)))`, which keeps every value except a
signalling NaN (exponent bits all ones, mantissa not zero, bit 22 clear), whose quiet
bit 22 it sets. -/
def float32Stored (u : Nat) : Nat :=
  if u / 8388608 % 256 = 255 ∧ u % 8388608 ≠ 0 ∧ u / 4194304 % 2 = 0 then u + 4194304
  else u

/-- The conversion `int64(u)` of a `uint64`, and the result of `int64`
arithmetic: reduction to the range `-2^63 .. 2^63 - 1`. -/
def wrapInt64 (x : Int) : Int :=
  (x + 9223372036854775808) % 18446744073709551616 - 9223372036854775808

/-- The call `io.ReadFull` on a `bytes.Reader` holding `r`, for `n` bytes: the bytes
read (`none` on a short read) and the bytes left in the reader. -/
def readFull (n : Nat) (r : List Byte) : Option (List Byte) × List Byte :=
  if n ≤ r.length then (some (r.take n), r.drop n) else (none, [])

/-- The call `bytes.Index(s, []byte{c})`: the first index of `c`, or `-1`. -/
def bytesIndex (s : List Byte) (c : Byte) : Int :=
  match s with
  | [] => -1
  | b :: t => if b = c then 0 else
      let i := bytesIndex t c
      if i < 0 then -1 else i + 1

/-- The slice expression `s[:hi]` with its bounds check; `none` is the panic. -/
def sliceTo (s : List Byte) (hi : Int) : Option (List Byte) :=
  if hi < 0 ∨ (s.length : Int) < hi then none else some (s.take hi.toNat)

/-! ## The track loop of `DecodeFile` -/

/-- The name loop (lines 64-68): `n` single-byte reads, each appending the byte
read, or `0` when the reader is exhausted. -/
def readName : Nat → List Byte → List Byte × List Byte
  | 0, r => ([], r)
  | n + 1, r =>
    let c := (readFull 1 r).1
    let more := readName n (readFull 1 r).2
    ((match c with | some [b] => b | _ => 0) :: more.1, more.2)

/-- The state of the loop `for rest > 0`: the reader, the countdown and the tracks
appended so far. -/
structure LoopState where
  r : List Byte
  rest : Int
  tracks : List track
deriving DecidableEq

/-- The three reads of one loop iteration (lines 53-76): the track, the `uint32`
name size and the reader afterwards. -/
def readTrack (r : List Byte) : track × Nat × List Byte :=
  let rid := readFull 1 r
  let id : Byte := match rid.1 with | some [b] => b | _ => 0
  let rsz := readFull 4 rid.2
  let nameSize : Nat := match rsz.1 with | some bs => beUint bs % 4294967296 | none => 0
  let rname := readName nameSize rsz.2
  let rsteps := readFull 16 rname.2
  let steps : Steps := match rsteps.1 with
    | some bs => if h : bs.length = 16 then ⟨bs, h⟩ else Steps.zero
    | none => Steps.zero
  (⟨id, rname.1, steps⟩, nameSize, rsteps.2)

/-- One iteration of the loop body (lines 53-77); the decrement
`int64(1 + 4 + nameSize + 16)` is computed in `uint32`. -/
def loopBody (s : LoopState) : LoopState :=
  let t := readTrack s.r
  ⟨t.2.2, wrapInt64 (s.rest - ((1 + 4 + t.2.1 + 16) % 4294967296 : Nat)),
    s.tracks ++ [t.1]⟩

/-- The loop `for rest > 0 { ... }` (lines 52-78). -/
def trackLoop (s : LoopState) : LoopState :=
  if 0 < s.rest then trackLoop (loopBody s) else s
termination_by s.rest.toNat + s.r.length
decreasing_by
  rename_i h
  have hfull : ∀ (n : Nat) (r : List Byte), (readFull n r).2.length ≤ r.length ∧
      ((readFull n r).1 = none → (readFull n r).2.length = 0) ∧
      (0 < n → (readFull n r).1 ≠ none → (readFull n r).2.length < r.length) := by
    intro n r
    unfold readFull
    split
    · simp; omega
    · simp
  have hname : ∀ (n : Nat) (r : List Byte), (readName n r).2.length ≤ r.length := by
    intro n
    induction n with
    | zero => intro r; simp [readName]
    | succ k ih =>
      intro r
      simp only [readName]
      exact le_trans (ih _) (hfull 1 r).1
  have h1 := hfull 1 s.r
  have h4 := hfull 4 (readFull 1 s.r).2
  have hn := hname (readTrack s.r).2.1 (readFull 4 (readFull 1 s.r).2).2
  have h16 := hfull 16 (readName (readTrack s.r).2.1 (readFull 4 (readFull 1 s.r).2).2).2
  have hlen : (readTrack s.r).2.2.length ≤ s.r.length ∧
      ((readTrack s.r).2.1 ≠ 0 → (readTrack s.r).2.2.length < s.r.length) := by
    refine ⟨le_trans h16.1 (le_trans hn (le_trans h4.1 h1.1)), ?_⟩
    intro hne
    have hsome : (readFull 4 (readFull 1 s.r).2).1 ≠ none := by
      intro hnone
      apply hne
      simp [readTrack, hnone]
    exact lt_of_le_of_lt (le_trans h16.1 hn) (lt_of_lt_of_le (h4.2.2 (by decide) hsome) h1.1)
  simp only [loopBody, wrapInt64]
  by_cases hz : (readTrack s.r).2.1 = 0
  · rw [hz]
    have := hlen.1
    omega
  · have := hlen.2 hz
    omega

/-- The loop `for rest > 0 { ... }` cut off after `n` iterations: `none` when the
loop has not ended by then. -/
def runLoop : Nat → LoopState → Option LoopState
  | 0, s => if 0 < s.rest then none else some s
  | n + 1, s => if 0 < s.rest then runLoop n (loopBody s) else some s

/-- The body of `DecodeFile` once `ioutil.ReadFile` has returned `data`
(lines 29-80). -/
def decode (path : String) (data : List Byte) : Outcome :=
  if data.length < 6 ∨ data.take 6 ≠ ascii "SPLICE" then
    Outcome.err ("File '" ++ path ++ "' is not a valid splice file, SPLICE header not found")
  else
    let r := data.drop 6
    let rsize := readFull 8 r
    let dataSize : Int := match rsize.1 with | some bs => wrapInt64 (beUint bs) | none => 0
    let rheader := readFull 36 rsize.2
    let version : List Byte :=
      match rheader.1 with | some bs => bs.take 32 | none => List.replicate 32 0
    let tempo : Nat :=
      match rheader.1 with | some bs => float32Stored (leUint (bs.drop 32)) | none => 0
    let pos := bytesIndex version 0
    match sliceTo version pos with
    | none => Outcome.panic
    | some v =>
      let rest := wrapInt64 (dataSize - (32 + 8))
      Outcome.ok ⟨v, tempo, (trackLoop ⟨rheader.2, rest, []⟩).tracks⟩

/-- The function `DecodeFile`; `readFile` stands for `ioutil.ReadFile`, giving the
bytes of the file or the text of its error. -/
def DecodeFile (readFile : String → Except String (List Byte)) (path : String) : Outcome :=
  match readFile path with
  | Except.error e => Outcome.err e
  | Except.ok data => decode path data

/-! ## Rendering -/

/-- The verb `%d` of `fmt.Sprintf` on an unsigned integer. -/
def decimal (n : Nat) : List Byte :=
  (Nat.toDigits 10 n).map charByte

/-- The element `t.Steps[i]`, for `i < 16`. -/
def Steps.at (s : Steps) (i : Nat) : Byte := s.val.getD i 0

/-- The method `track.String` (lines 107-121). -/
def track.String (t : track) : List Byte :=
  let s := ascii "(" ++ decimal t.ID.val ++ ascii ") " ++ t.Name ++ ascii "\t|"
  let s := (List.range 4).foldl (fun s m =>
    (List.range 4).foldl (fun s i =>
      if t.Steps.at (m * 4 + i) ≠ 0 then s ++ ascii "x" else s ++ ascii "-") s ++ ascii "|") s
  s ++ ascii "\n"

/-- The method `Pattern.String` (lines 97-105); `formatTempo` is
`strconv.FormatFloat(float64(·), 'f', -1, 32)` on the bits of the `float32`. -/
def Pattern.String (formatTempo : Nat → List Byte) (p : Pattern) : List Byte :=
  let header := ascii "Saved with HW Version: " ++ p.Version ++ ascii "\nTempo: " ++
    formatTempo p.Tempo ++ ascii "\n"
  p.Tracks.foldl (fun s t => s ++ t.String) header


/-! ## The file format, as the specification lays it out -/

/-- The 4 bytes of `n` in big-endian order (`n < 2^32`). -/
def bigEndian32 (n : Nat) : List Byte :=
  [Fin.ofNat (n / 16777216), Fin.ofNat (n / 65536), Fin.ofNat (n / 256), Fin.ofNat n]

/-- The 8 bytes of `n` in big-endian order (`n < 2^64`). -/
def bigEndian64 (n : Nat) : List Byte :=
  bigEndian32 (n / 4294967296) ++ bigEndian32 n

/-- A track record on disk: id, big-endian name length, name, 16 step bytes. -/
def encodeTrack (t : track) : List Byte :=
  t.ID :: bigEndian32 t.Name.length ++ t.Name ++ t.Steps.val

/-- The declared payload size of a pattern with tracks `ts`: 36 bytes of version and
tempo, then `21 + len(name)` bytes for each track. -/
def payloadSize (ts : List track) : Nat :=
  36 + (ts.map (fun t => 21 + t.Name.length)).sum

/-- A well-formed buffer: magic, payload size, version field `V`, tempo bytes `T`,
the track records in order, and trailing bytes. -/
def encodeBuffer (V T : List Byte) (ts : List track) (trailing : List Byte) : List Byte :=
  ascii "SPLICE" ++ bigEndian64 (payloadSize ts) ++ V ++ T ++
    (ts.map encodeTrack).flatten ++ trailing

/-! ## The example of the specification -/

/-- The version field of the example: `0.808-alpha`, NUL-padded to 32 bytes. -/
def exampleVersion : List Byte := ascii "0.808-alpha" ++ List.replicate 21 0

/-- The tempo bytes of the example: `120.0` as a little-endian `float32`. -/
def exampleTempo : List Byte := [0x00, 0x00, 0xF0, 0x42]

/-- The track of the example: id 0, name `kick`, first step on. -/
def exampleTrack : track :=
  ⟨0, ascii "kick", ⟨[1, 0, 0, 0, 0, 0, 0, 0, 0, 0, 0, 0, 0, 0, 0, 0], rfl⟩⟩

/-- The buffer of the end-to-end example, byte by byte. -/
def exampleBuffer : List Byte :=
  ascii "SPLICE" ++ [0, 0, 0, 0, 0, 0, 0, 61] ++ exampleVersion ++ exampleTempo ++
    [0] ++ [0, 0, 0, 4] ++ ascii "kick" ++ [1, 0, 0, 0, 0, 0, 0, 0, 0, 0, 0, 0, 0, 0, 0, 0]

/-- A buffer whose payload ends inside a track record: payload size 57 leaves 21 bytes
for tracks, the record declares a 1-byte name, so its last step byte lies at offset
71, after the payload. -/
def overrunBuffer (last : Byte) : List Byte :=
  ascii "SPLICE" ++ bigEndian64 57 ++ exampleVersion ++ exampleTempo ++
    [0] ++ bigEndian32 1 ++ ascii "A" ++ List.replicate 15 0 ++ [last]

/-- A buffer of 50 bytes whose version field holds no NUL. -/
def noNulBuffer : List Byte :=
  ascii "SPLICE" ++ bigEndian64 36 ++ List.replicate 32 0x41 ++ exampleTempo

/-- A buffer whose payload size `P` lies between 37 and 40, followed by one complete
track record. -/
def shortPayloadBuffer (P : Nat) : List Byte :=
  ascii "SPLICE" ++ bigEndian64 P ++ exampleVersion ++ exampleTempo ++ encodeTrack exampleTrack

/-- A buffer with payload size 57 whose only track record declares a name of
`2^32 - 21` bytes (`FF FF FF EB`) and ends there. -/
def wrapNameBuffer : List Byte :=
  ascii "SPLICE" ++ bigEndian64 57 ++ exampleVersion ++ exampleTempo ++
    [0, 0xFF, 0xFF, 0xFF, 0xEB]

/-- A buffer of 50 bytes whose payload size field is `80 00 00 00 00 00 00 00`, the
`int64` value `-2^63`. -/
def negPayloadBuffer : List Byte :=
  ascii "SPLICE" ++ [0x80, 0, 0, 0, 0, 0, 0, 0] ++ exampleVersion ++ exampleTempo

/-- Tempo bytes that hold a signalling NaN: the little-endian bits `0x7F800001`. -/
def signallingTempo : List Byte := [0x01, 0x00, 0x80, 0x7F]

/-! ## Lemmas on the reader -/

theorem trackLoop_pos (s : LoopState) (h : 0 < s.rest) :
    trackLoop s = trackLoop (loopBody s) := by
  rw [trackLoop, if_pos h]

theorem trackLoop_nonpos (s : LoopState) (h : ¬ 0 < s.rest) : trackLoop s = s := by
  rw [trackLoop, if_neg h]

theorem readFull_append (n : Nat) (a b : List Byte) (h : a.length = n) :
    readFull n (a ++ b) = (some a, b) := by
  subst h
  simp [readFull]

theorem readFull_short (n : Nat) (r : List Byte) (h : r.length < n) :
    readFull n r = (none, []) := by
  simp [readFull, Nat.not_le.mpr h]

theorem readName_append (a b : List Byte) : readName a.length (a ++ b) = (a, b) := by
  induction a with
  | nil => simp [readName]
  | cons x a ih =>
    simp only [List.length_cons, readName, List.cons_append]
    have h1 : readFull 1 (x :: (a ++ b)) = (some [x], a ++ b) :=
      readFull_append 1 [x] (a ++ b) rfl
    rw [h1, ih]

theorem beUint_bigEndian32 (n : Nat) (h : n < 4294967296) : beUint (bigEndian32 n) = n := by
  simp only [beUint, bigEndian32, List.foldl, Fin.ofNat, Fin.val_mk]
  omega

theorem beUint_bigEndian64 (n : Nat) (h : n < 18446744073709551616) :
    beUint (bigEndian64 n) = n := by
  simp only [beUint, bigEndian64, bigEndian32, List.foldl, Fin.ofNat, Fin.val_mk,
    List.cons_append, List.nil_append]
  omega

theorem bigEndian32_length (n : Nat) : (bigEndian32 n).length = 4 := rfl

theorem bigEndian64_length (n : Nat) : (bigEndian64 n).length = 8 := rfl

theorem readTrack_encodeTrack (t : track) (tail : List Byte)
    (h : t.Name.length < 4294967296) :
    readTrack (encodeTrack t ++ tail) = (t, t.Name.length, tail) := by
  have h1 : readFull 1 (encodeTrack t ++ tail) =
      (some [t.ID], bigEndian32 t.Name.length ++ (t.Name ++ (t.Steps.val ++ tail))) := by
    have := readFull_append 1 [t.ID]
      (bigEndian32 t.Name.length ++ (t.Name ++ (t.Steps.val ++ tail))) rfl
    simpa [encodeTrack] using this
  have h4 := readFull_append 4 (bigEndian32 t.Name.length) (t.Name ++ (t.Steps.val ++ tail))
    (bigEndian32_length _)
  have h16 := readFull_append 16 t.Steps.val tail t.Steps.property
  simp only [readTrack, h1, h4, beUint_bigEndian32 _ h, Nat.mod_eq_of_lt h, readName_append,
    h16]
  simp [t.Steps.property]

theorem wrapInt64_of_range (x : Int) (h1 : -9223372036854775808 ≤ x)
    (h2 : x < 9223372036854775808) : wrapInt64 x = x := by
  unfold wrapInt64
  omega

theorem payloadSize_cons (t : track) (ts : List track) :
    payloadSize (t :: ts) = 21 + t.Name.length + payloadSize ts := by
  simp [payloadSize]
  omega

theorem trackLoop_records (ts : List track) (tail : List Byte) (acc : List track)
    (hn : ∀ t ∈ ts, 21 + t.Name.length < 4294967296)
    (hP : payloadSize ts < 9223372036854775808) :
    trackLoop ⟨(ts.map encodeTrack).flatten ++ tail, (payloadSize ts : Int) - 40, acc⟩ =
      ⟨tail, -4, acc ++ ts⟩ := by
  induction ts generalizing acc with
  | nil =>
    rw [trackLoop_nonpos _ (by simp [payloadSize])]
    simp [payloadSize]
  | cons t ts ih =>
    have ht := hn t (List.mem_cons_self t ts)
    have hts : ∀ u ∈ ts, 21 + u.Name.length < 4294967296 :=
      fun u hu => hn u (List.mem_cons_of_mem t hu)
    rw [payloadSize_cons] at hP
    have h36 : 36 ≤ payloadSize ts := by simp [payloadSize]
    rw [trackLoop_pos _ (by simp only [payloadSize_cons]; push_cast; omega)]
    have hrt := readTrack_encodeTrack t ((ts.map encodeTrack).flatten ++ tail) (by omega)
    have hbody : loopBody ⟨((t :: ts).map encodeTrack).flatten ++ tail,
        (payloadSize (t :: ts) : Int) - 40, acc⟩ =
        ⟨(ts.map encodeTrack).flatten ++ tail, (payloadSize ts : Int) - 40, acc ++ [t]⟩ := by
      simp only [loopBody, List.map_cons, List.flatten_cons, List.append_assoc, hrt]
      have hmod : (1 + 4 + t.Name.length + 16) % 4294967296 = 21 + t.Name.length := by
        omega
      rw [hmod, payloadSize_cons, wrapInt64_of_range _ (by push_cast; omega)
        (by push_cast; omega)]
      congr 1
      push_cast
      omega
    rw [hbody, ih (acc ++ [t]) hts (by omega)]
    simp

theorem take_drop_split (data : List Byte) :
    data = data.take 6 ++ (data.drop 6).take 8 ++ (data.drop 14).take 32 ++
      (data.drop 46).take 4 ++ data.drop 50 := by
  have e1 : data.drop 14 = (data.drop 6).drop 8 := by simp
  have e2 : data.drop 46 = ((data.drop 6).drop 8).drop 32 := by simp
  have e3 : data.drop 50 = (((data.drop 6).drop 8).drop 32).drop 4 := by simp
  rw [e3, e2, e1]
  simp only [List.append_assoc, List.take_append_drop]

theorem decode_layout (path : String) (sz V T body : List Byte)
    (hsz : sz.length = 8) (hV : V.length = 32) (hT : T.length = 4) :
    decode path (ascii "SPLICE" ++ sz ++ V ++ T ++ body) =
      match sliceTo V (bytesIndex V 0) with
      | none => Outcome.panic
      | some v => Outcome.ok ⟨v, float32Stored (leUint T),
          (trackLoop ⟨body, wrapInt64 (wrapInt64 (beUint sz) - 40), []⟩).tracks⟩ := by
  have hmagic : (ascii "SPLICE").length = 6 := by decide
  have hlen : ¬ ((ascii "SPLICE" ++ sz ++ V ++ T ++ body).length < 6 ∨
      (ascii "SPLICE" ++ sz ++ V ++ T ++ body).take 6 ≠ ascii "SPLICE") := by
    simp only [List.append_assoc, List.length_append, hmagic, not_or, not_lt, ne_eq, not_not]
    refine ⟨by omega, ?_⟩
    rw [List.take_append_of_le_length (by omega)]
    exact List.take_of_length_le (by omega)
  have hdrop : (ascii "SPLICE" ++ sz ++ V ++ T ++ body).drop 6 = sz ++ ((V ++ T) ++ body) := by
    simp only [List.append_assoc]
    exact List.drop_left' hmagic
  have h8 := readFull_append 8 sz ((V ++ T) ++ body) hsz
  have h36 := readFull_append 36 (V ++ T) body (by simp [hV, hT])
  have hv : (V ++ T).take 32 = V := by
    rw [List.take_append_of_le_length (by omega)]
    exact List.take_of_length_le (by omega)
  have ht : (V ++ T).drop 32 = T := List.drop_left' hV
  simp only [decode, if_neg hlen, hdrop, h8, h36, hv, ht]
  rfl

theorem bytesIndex_eq (s : List Byte) (c : Byte) :
    bytesIndex s c = if c ∈ s then ((s.takeWhile (fun b => b ≠ c)).length : Int) else -1 := by
  induction s with
  | nil => simp [bytesIndex]
  | cons b t ih =>
    by_cases hb : b = c
    · simp [bytesIndex, hb]
    · have hcb : ¬ c = b := fun h => hb h.symm
      simp only [bytesIndex, if_neg hb, ih, List.mem_cons, hcb, false_or]
      by_cases hc : c ∈ t
      · simp only [if_pos hc, List.takeWhile_cons, ne_eq, hb, not_false_eq_true, decide_True,
          if_true, List.length_cons]
        rw [if_neg (by omega)]
        push_cast
        rfl
      · simp [if_neg hc]

theorem take_length_takeWhile (p : Byte → Bool) (s : List Byte) :
    s.take (s.takeWhile p).length = s.takeWhile p := by
  induction s with
  | nil => simp
  | cons b t ih =>
    by_cases hb : p b
    · simp [List.takeWhile_cons, hb, ih]
    · simp [List.takeWhile_cons, hb]

theorem sliceTo_bytesIndex_mem (V : List Byte) (h : (0 : Byte) ∈ V) :
    sliceTo V (bytesIndex V 0) = some (V.takeWhile (fun b => b ≠ 0)) := by
  have hle : (V.takeWhile (fun b => b ≠ 0)).length ≤ V.length :=
    (List.takeWhile_sublist _).length_le
  rw [bytesIndex_eq, if_pos h, sliceTo, if_neg (by omega)]
  simp only [Int.toNat_ofNat]
  rw [take_length_takeWhile]

theorem sliceTo_bytesIndex_not_mem (V : List Byte) (h : (0 : Byte) ∉ V) :
    sliceTo V (bytesIndex V 0) = none := by
  rw [bytesIndex_eq, if_neg h, sliceTo, if_pos (by omega)]

theorem takeWhile_ne_zero_spec (V : List Byte) (h : (0 : Byte) ∈ V) :
    (0 : Byte) ∉ V.takeWhile (fun b => b ≠ 0) ∧
      (V.takeWhile (fun b => b ≠ 0)).length < V.length := by
  constructor
  · intro hmem
    have := List.mem_takeWhile_imp hmem
    simp at this
  · induction V with
    | nil => simp at h
    | cons b t ih =>
      by_cases hb : b = 0
      · simp [List.takeWhile_cons, hb]
      · have ht : (0 : Byte) ∈ t := by
          rcases List.mem_cons.mp h with h0 | h0
          · exact absurd h0.symm hb
          · exact h0
        have := ih ht
        simp only [List.takeWhile_cons, ne_eq, hb, not_false_eq_true, decide_True, if_true,
          List.length_cons] at this ⊢
        omega

theorem encodeBuffer_length (V T : List Byte) (ts : List track) (trailing : List Byte)
    (hV : V.length = 32) (hT : T.length = 4) :
    (encodeBuffer V T ts trailing).length = 14 + payloadSize ts + trailing.length := by
  have hrec : ((ts.map encodeTrack).flatten).length + 36 = payloadSize ts := by
    induction ts with
    | nil => simp [payloadSize]
    | cons t ts ih =>
      rw [payloadSize_cons]
      simp only [List.map_cons, List.flatten_cons, List.length_append]
      have : (encodeTrack t).length = 21 + t.Name.length := by
        simp [encodeTrack, bigEndian32_length, t.Steps.property]
        omega
      omega
  have hmagic : (ascii "SPLICE").length = 6 := by decide
  simp only [encodeBuffer, List.length_append, hmagic, bigEndian64_length, hV, hT]
  omega

theorem decode_encodeBuffer_gen (path : String) (V T : List Byte) (ts : List track)
    (trailing : List Byte) (hV : V.length = 32) (hT : T.length = 4)
    (hn : ∀ t ∈ ts, 21 + t.Name.length < 4294967296)
    (hP : payloadSize ts < 9223372036854775808) :
    decode path (encodeBuffer V T ts trailing) =
      match sliceTo V (bytesIndex V 0) with
      | none => Outcome.panic
      | some v => Outcome.ok ⟨v, float32Stored (leUint T), ts⟩ := by
  have h := decode_layout path (bigEndian64 (payloadSize ts)) V T
    ((ts.map encodeTrack).flatten ++ trailing) (bigEndian64_length _) hV hT
  have hb : beUint (bigEndian64 (payloadSize ts)) = payloadSize ts :=
    beUint_bigEndian64 _ (by omega)
  have h36 : 36 ≤ payloadSize ts := by simp [payloadSize]
  have hloop := trackLoop_records ts trailing [] hn hP
  have hw1 : wrapInt64 (payloadSize ts : Int) = payloadSize ts :=
    wrapInt64_of_range _ (by omega) (by omega)
  have hw2 : wrapInt64 ((payloadSize ts : Int) - 40) = (payloadSize ts : Int) - 40 :=
    wrapInt64_of_range _ (by omega) (by omega)
  rw [hb, hw1, hw2, hloop] at h
  simpa [encodeBuffer, List.append_assoc] using h

theorem decode_long (path : String) (data : List Byte) (hm : data.take 6 = ascii "SPLICE")
    (hl : 50 ≤ data.length) :
    decode path data =
      match sliceTo ((data.drop 14).take 32) (bytesIndex ((data.drop 14).take 32) 0) with
      | none => Outcome.panic
      | some v => Outcome.ok ⟨v, float32Stored (leUint ((data.drop 46).take 4)),
          (trackLoop ⟨data.drop 50,
            wrapInt64 (wrapInt64 (beUint ((data.drop 6).take 8)) - 40), []⟩).tracks⟩ := by
  have h := decode_layout path ((data.drop 6).take 8) ((data.drop 14).take 32)
    ((data.drop 46).take 4) (data.drop 50) (by simp; omega) (by simp; omega) (by simp; omega)
  rw [← hm, ← take_drop_split data] at h
  exact h

theorem trackLoop_of_runLoop (n : Nat) (s s' : LoopState) (h : runLoop n s = some s') :
    trackLoop s = s' := by
  induction n generalizing s with
  | zero =>
    by_cases hr : 0 < s.rest
    · simp [runLoop, hr] at h
    · simp only [runLoop, if_neg hr, Option.some.injEq] at h
      rw [trackLoop_nonpos s hr, h]
  | succ k ih =>
    by_cases hr : 0 < s.rest
    · simp only [runLoop, if_pos hr] at h
      rw [trackLoop_pos s hr]
      exact ih _ h
    · simp only [runLoop, if_neg hr, Option.some.injEq] at h
      rw [trackLoop_nonpos s hr, h]

theorem decode_short (path : String) (data : List Byte) (hm : data.take 6 = ascii "SPLICE")
    (hl : data.length < 50) :
    decode path data = Outcome.ok ⟨[], 0,
      (trackLoop ⟨[], wrapInt64 ((if 14 ≤ data.length then
        wrapInt64 (beUint ((data.drop 6).take 8)) else 0) - 40), []⟩).tracks⟩ := by
  have h6 : 6 ≤ data.length := by
    have := congrArg List.length hm
    simp at this
    have hmagic : (ascii "SPLICE").length = 6 := by decide
    omega
  have hguard : ¬ (data.length < 6 ∨ data.take 6 ≠ ascii "SPLICE") := by
    simp [hm]; omega
  have hz : sliceTo (List.replicate 32 (0 : Byte)) (bytesIndex (List.replicate 32 0) 0) =
      some [] := by decide
  by_cases h14 : 14 ≤ data.length
  · have h8 : readFull 8 (data.drop 6) = (some ((data.drop 6).take 8), (data.drop 6).drop 8) := by
      simp [readFull]; omega
    have h36 : readFull 36 ((data.drop 6).drop 8) = (none, []) :=
      readFull_short _ _ (by simp; omega)
    simp only [decode, if_neg hguard, h8, h36, hz, if_pos h14]
    rfl
  · have h8 : readFull 8 (data.drop 6) = (none, []) := readFull_short _ _ (by simp; omega)
    have h36 : readFull 36 ([] : List Byte) = (none, []) := readFull_short _ _ (by simp)
    simp only [decode, if_neg hguard, h8, h36, hz, if_neg h14]
    rfl

theorem take_encodeBuffer_magic (V T : List Byte) (ts : List track) (trailing : List Byte)
    (n : Nat) (hn : 6 ≤ n) :
    ((encodeBuffer V T ts trailing).take n).take 6 = ascii "SPLICE" := by
  have hmagic : (ascii "SPLICE").length = 6 := by decide
  rw [List.take_take, min_eq_left hn]
  simp only [encodeBuffer, List.append_assoc]
  rw [List.take_append_of_le_length (by omega)]
  exact List.take_of_length_le (by omega)

theorem take_encodeBuffer_long (V T : List Byte) (ts : List track) (trailing : List Byte)
    (n : Nat) (hV : V.length = 32) (hT : T.length = 4) (hn : 50 ≤ n) :
    (encodeBuffer V T ts trailing).take n =
      ascii "SPLICE" ++ bigEndian64 (payloadSize ts) ++ V ++ T ++
        ((ts.map encodeTrack).flatten ++ trailing).take (n - 50) := by
  have hmagic : (ascii "SPLICE").length = 6 := by decide
  have h50 : (ascii "SPLICE" ++ bigEndian64 (payloadSize ts) ++ V ++ T).length = 50 := by
    simp [hmagic, bigEndian64_length, hV, hT]
  have e : encodeBuffer V T ts trailing =
      (ascii "SPLICE" ++ bigEndian64 (payloadSize ts) ++ V ++ T) ++
        ((ts.map encodeTrack).flatten ++ trailing) := by
    simp [encodeBuffer, List.append_assoc]
  rw [e, List.take_append_eq_append_take, h50, List.take_of_length_le (by omega)]

theorem stepLoop_eq (f : Nat → Byte) (l : List Nat) (s : List Byte) :
    l.foldl (fun s i => if f i ≠ 0 then s ++ ascii "x" else s ++ ascii "-") s =
      s ++ l.map (fun i => if f i = 0 then charByte '-' else charByte 'x') := by
  induction l generalizing s with
  | nil => simp
  | cons i l ih =>
    have hx : ascii "x" = [charByte 'x'] := by decide
    have hm : ascii "-" = [charByte '-'] := by decide
    simp only [List.foldl, ih, List.map]
    by_cases h : f i = 0
    · simp [h, hm]
    · simp [h, hx]

theorem foldl_append_flatten (f : track → List Byte) (init : List Byte) (ts : List track) :
    ts.foldl (fun s t => s ++ f t) init = init ++ (ts.map f).flatten := by
  induction ts generalizing init with
  | nil => simp
  | cons t ts ih => simp [ih, List.append_assoc]

theorem readFull_length_le (n : Nat) (r : List Byte) : (readFull n r).2.length ≤ r.length := by
  unfold readFull
  split
  · simp
  · simp

theorem readFull_some_length (n : Nat) (r : List Byte) (hn : 0 < n)
    (h : (readFull n r).1 ≠ none) : (readFull n r).2.length < r.length := by
  unfold readFull at h ⊢
  split
  · simp; omega
  · rename_i hlt
    simp [hlt] at h

theorem readName_length_le (n : Nat) (r : List Byte) : (readName n r).2.length ≤ r.length := by
  induction n generalizing r with
  | zero => simp [readName]
  | succ k ih =>
    simp only [readName]
    exact le_trans (ih _) (readFull_length_le 1 r)

theorem readTrack_reader_le (r : List Byte) : (readTrack r).2.2.length ≤ r.length := by
  simp only [readTrack]
  exact le_trans (readFull_length_le 16 _) (le_trans (readName_length_le _ _)
    (le_trans (readFull_length_le 4 _) (readFull_length_le 1 r)))

theorem readTrack_nameSize_lt (r : List Byte) : (readTrack r).2.1 < 4294967296 := by
  simp only [readTrack]
  split
  · exact Nat.mod_lt _ (by decide)
  · decide

theorem readTrack_nameSize_pos (r : List Byte) (h : (readTrack r).2.1 ≠ 0) :
    (readTrack r).2.2.length < r.length := by
  have hsome : (readFull 4 (readFull 1 r).2).1 ≠ none := by
    intro hnone
    apply h
    simp [readTrack, hnone]
  have h4 := readFull_some_length 4 (readFull 1 r).2 (by decide) hsome
  simp only [readTrack]
  exact lt_of_le_of_lt (le_trans (readFull_length_le 16 _) (readName_length_le _ _))
    (lt_of_lt_of_le h4 (readFull_length_le 1 r))

theorem loopBody_measure (s : LoopState) (h : 0 < s.rest) :
    (loopBody s).rest.toNat + (loopBody s).r.length < s.rest.toNat + s.r.length := by
  have hle := readTrack_reader_le s.r
  have hlt := readTrack_nameSize_lt s.r
  simp only [loopBody, wrapInt64]
  by_cases hz : (readTrack s.r).2.1 = 0
  · rw [hz]
    omega
  · have := readTrack_nameSize_pos s.r hz
    omega

theorem runLoop_of_measure (m : Nat) (s : LoopState) (h : s.rest.toNat + s.r.length ≤ m) :
    runLoop m s = some (trackLoop s) := by
  induction m generalizing s with
  | zero =>
    have hr : ¬ 0 < s.rest := by omega
    simp only [runLoop, if_neg hr, trackLoop_nonpos s hr]
  | succ k ih =>
    by_cases hr : 0 < s.rest
    · have := loopBody_measure s hr
      simp only [runLoop, if_pos hr, trackLoop_pos s hr]
      exact ih _ (by omega)
    · simp only [runLoop, if_neg hr, trackLoop_nonpos s hr]

theorem loopBody_nil (rest : Int) (acc : List track) :
    loopBody ⟨[], rest, acc⟩ = ⟨[], wrapInt64 (rest - 21), acc ++ [⟨0, [], Steps.zero⟩]⟩ := by
  have h : readTrack [] = (⟨0, [], Steps.zero⟩, 0, []) := by decide
  simp only [loopBody, h]
  rfl

theorem trackLoop_nil (n : Nat) (acc : List track) (hn : n < 9223372036854775808) :
    (trackLoop ⟨[], (n : Int), acc⟩).tracks =
      acc ++ List.replicate ((n + 20) / 21) ⟨0, [], Steps.zero⟩ := by
  induction n using Nat.strong_induction_on generalizing acc with
  | _ n ih =>
    by_cases h0 : n = 0
    · subst h0
      rw [trackLoop_nonpos _ (by simp)]
      simp
    · rw [trackLoop_pos _ (by simp; omega), loopBody_nil,
        wrapInt64_of_range _ (by omega) (by omega)]
      by_cases h21 : n ≤ 21
      · rw [trackLoop_nonpos _ (by simp; omega)]
        have hk : (n + 20) / 21 = 1 := by omega
        simp [hk]
      · have hcast : (n : Int) - 21 = ((n - 21 : Nat) : Int) := by omega
        rw [hcast, ih (n - 21) (by omega) _ (by omega)]
        have hk : (n + 20) / 21 = (n - 21 + 20) / 21 + 1 := by omega
        rw [hk, List.replicate_succ]
        simp

theorem decode_of_bad_magic (path : String) (data : List Byte)
    (h : data.length < 6 ∨ data.take 6 ≠ ascii "SPLICE") :
    decode path data = Outcome.err
      ("File '" ++ path ++ "' is not a valid splice file, SPLICE header not found") := by
  unfold decode
  rw [if_pos h]

theorem decode_of_magic (l1 l2 : String) (data : List Byte)
    (h : ¬ (data.length < 6 ∨ data.take 6 ≠ ascii "SPLICE")) :
    decode l1 data = decode l2 data ∧
      (decode l1 data = Outcome.panic ∨ ∃ p, decode l1 data = Outcome.ok p) := by
  constructor
  · unfold decode
    rw [if_neg h, if_neg h]
  · unfold decode
    rw [if_neg h]
    simp only
    split
    · exact Or.inl rfl
    · exact Or.inr ⟨_, rfl⟩

theorem readName_nil (n : Nat) : readName n [] = (List.replicate n 0, []) := by
  induction n with
  | zero => rfl
  | succ k ih =>
    have h1 : readFull 1 ([] : List Byte) = (none, []) := rfl
    simp only [readName, h1, ih, List.replicate_succ]

theorem loopBody_eq (s : LoopState) :
    loopBody s = ⟨(readTrack s.r).2.2,
      wrapInt64 (s.rest - (((1 + 4 + (readTrack s.r).2.1 + 16) % 4294967296 : Nat) : Int)),
      s.tracks ++ [(readTrack s.r).1]⟩ :=
  rfl

theorem loopBody_rest (s : LoopState) :
    (loopBody s).rest =
      wrapInt64 (s.rest - (((1 + 4 + (readTrack s.r).2.1 + 16) % 4294967296 : Nat) : Int)) :=
  rfl

theorem readTrack_nameSize (id : Byte) (sz tail : List Byte) (h : sz.length = 4) :
    (readTrack (id :: (sz ++ tail))).2.1 = beUint sz % 4294967296 := by
  have h1 : readFull 1 (id :: (sz ++ tail)) = (some [id], sz ++ tail) :=
    readFull_append 1 [id] (sz ++ tail) rfl
  have h4 := readFull_append 4 sz tail h
  simp only [readTrack, h1, h4]

theorem readTrack_header_only (id : Byte) (sz : List Byte) (h : sz.length = 4) :
    (readTrack (id :: sz)).2.2 = [] := by
  have h1 : readFull 1 (id :: sz) = (some [id], sz) := readFull_append 1 [id] sz rfl
  have h4 : readFull 4 sz = (some sz, []) := by
    have := readFull_append 4 sz [] h
    simpa using this
  have h16 : readFull 16 ([] : List Byte) = (none, []) := rfl
  simp only [readTrack, h1, h4, readName_nil, h16]

/-! ## The claims -/

/-- C1, counterexample: the well-formed buffer with the example version, the tempo
bytes `01 00 80 7F` (a signalling NaN, little-endian bits `0x7F800001`) and the example
track decodes to a pattern whose tempo has the bits `0x7FC00001`, not the little-endian
bits of its tempo bytes. -/
theorem decode_wellFormed_counterexample :
    exampleVersion.length = 32 ∧ (0 : Byte) ∈ exampleVersion ∧ signallingTempo.length = 4 ∧
      (∀ t ∈ [exampleTrack], 21 + t.Name.length < 2 ^ 32) ∧
      (encodeBuffer exampleVersion signallingTempo [exampleTrack] []).length < 2 ^ 63 ∧
      leUint signallingTempo = 0x7F800001 ∧
      decode "a" (encodeBuffer exampleVersion signallingTempo [exampleTrack] []) =
        Outcome.ok ⟨ascii "0.808-alpha", 0x7FC00001, [exampleTrack]⟩ ∧
      decode "a" (encodeBuffer exampleVersion signallingTempo [exampleTrack] []) ≠
        Outcome.ok ⟨exampleVersion.takeWhile (fun b => b ≠ 0), leUint signallingTempo,
          [exampleTrack]⟩ := by
  have h := decode_encodeBuffer_gen "a" exampleVersion signallingTempo [exampleTrack] []
    (by decide) (by decide) (by decide) (by decide)
  rw [sliceTo_bytesIndex_mem _ (by decide)] at h
  have hv : exampleVersion.takeWhile (fun b => b ≠ 0) = ascii "0.808-alpha" := by decide
  have ht : float32Stored (leUint signallingTempo) = 0x7FC00001 := by decide
  have hl : leUint signallingTempo = 0x7F800001 := by decide
  rw [hv, ht] at h
  refine ⟨by decide, by decide, by decide, by decide, by decide, hl, h, ?_⟩
  rw [h, hv, hl]
  decide

/-- C1, amended: a well-formed buffer (magic, big-endian payload size
`36 + Σ (21 + len name)`, a 32-byte version field holding a NUL, 4 tempo bytes, the
track records, any trailing bytes) decodes to the pattern it encodes: the version is
the part of the field before its first NUL, the tempo has the little-endian bits of
the tempo bytes, with the quiet bit 22 set when they hold a signalling NaN
(`float32Stored`), and the tracks are exactly the encoded ones, in order.  The buffer
is a Go slice, so its length is below `2^63`. -/
theorem decode_wellFormed (path : String) (V T : List Byte) (ts : List track)
    (trailing : List Byte) (hV : V.length = 32) (h0 : (0 : Byte) ∈ V) (hT : T.length = 4)
    (hn : ∀ t ∈ ts, 21 + t.Name.length < 2 ^ 32)
    (hlen : (encodeBuffer V T ts trailing).length < 2 ^ 63) :
    decode path (encodeBuffer V T ts trailing) =
      Outcome.ok ⟨V.takeWhile (fun b => b ≠ 0), float32Stored (leUint T), ts⟩ := by
  rw [encodeBuffer_length V T ts trailing hV hT] at hlen
  have hP : payloadSize ts < 9223372036854775808 := by
    norm_num at hlen
    omega
  rw [decode_encodeBuffer_gen path V T ts trailing hV hT (by simpa using hn) hP,
    sliceTo_bytesIndex_mem V h0]

theorem decode_wellFormed_witness :
    decode "pattern_1.splice" (encodeBuffer exampleVersion exampleTempo [exampleTrack] [7, 7]) =
      Outcome.ok ⟨ascii "0.808-alpha", 1123024896, [exampleTrack]⟩ :=
  decode_wellFormed "pattern_1.splice" exampleVersion exampleTempo [exampleTrack] [7, 7]
    (by decide) (by decide) (by decide) (by decide) (by decide)

/-- C2: a buffer shorter than 6 bytes, or one whose first 6 bytes are not `SPLICE`,
makes `decode` return the invalid-header error, and no pattern. -/
theorem decode_invalidHeader (path : String) (data : List Byte)
    (h : data.length < 6 ∨ data.take 6 ≠ ascii "SPLICE") :
    decode path data = Outcome.err
      ("File '" ++ path ++ "' is not a valid splice file, SPLICE header not found") := by
  unfold decode
  rw [if_pos h]

theorem decode_invalidHeader_witness :
    decode "a" [] =
        Outcome.err "File 'a' is not a valid splice file, SPLICE header not found" ∧
      decode "a" (ascii "SPLICF" ++ (exampleBuffer.drop 6)) =
        Outcome.err "File 'a' is not a valid splice file, SPLICE header not found" :=
  ⟨decode_invalidHeader "a" [] (by decide),
   decode_invalidHeader "a" (ascii "SPLICF" ++ (exampleBuffer.drop 6)) (by decide)⟩

/-- C5: for a buffer with valid magic and at least 50 bytes whose version field
(offsets 14..45) holds a NUL, `decode` returns a pattern whose version is the part of
the field before its first NUL; it holds no NUL and has at most 31 bytes. -/
theorem decode_version_trimmed (path : String) (data : List Byte)
    (hm : data.take 6 = ascii "SPLICE") (hl : 50 ≤ data.length)
    (h0 : (0 : Byte) ∈ (data.drop 14).take 32) :
    ∃ p, decode path data = Outcome.ok p ∧
      p.Version = ((data.drop 14).take 32).takeWhile (fun b => b ≠ 0) ∧
      (0 : Byte) ∉ p.Version ∧ p.Version.length ≤ 31 := by
  rw [decode_long path data hm hl, sliceTo_bytesIndex_mem _ h0]
  refine ⟨_, rfl, rfl, ?_, ?_⟩
  · exact (takeWhile_ne_zero_spec _ h0).1
  · have h1 := (takeWhile_ne_zero_spec _ h0).2
    have h2 : ((data.drop 14).take 32).length ≤ 32 := by simp
    exact Nat.le_of_lt_succ (lt_of_lt_of_le h1 h2)

theorem decode_version_trimmed_witness :
    ∃ p, decode "a" exampleBuffer = Outcome.ok p ∧
      p.Version = ((exampleBuffer.drop 14).take 32).takeWhile (fun b => b ≠ 0) ∧
      (0 : Byte) ∉ p.Version ∧ p.Version.length ≤ 31 :=
  decode_version_trimmed "a" exampleBuffer (by decide) (by decide) (by decide)

/-- C3, counterexample: the first 20 bytes of the well-formed example buffer
(`6 ≤ 20 < 14 + 61`) decode without error, to a pattern with an empty version, tempo
bits 0 and one all-zero track. -/
theorem decode_truncated_counterexample :
    exampleBuffer = encodeBuffer exampleVersion exampleTempo [exampleTrack] [] ∧
      6 ≤ 20 ∧ 20 < 14 + payloadSize [exampleTrack] ∧
      decode "a" (exampleBuffer.take 20) = Outcome.ok ⟨[], 0, [⟨0, [], Steps.zero⟩]⟩ := by
  refine ⟨by decide, by decide, by decide, ?_⟩
  rw [decode_short "a" _ (by decide) (by decide),
    trackLoop_of_runLoop 1 _ ⟨[], 0, [⟨0, [], Steps.zero⟩]⟩ (by decide)]

/-- C3, amended: the first `n` bytes (`6 ≤ n < 14 + P`) of a well-formed buffer whose
version field holds a NUL decode without error, to a pattern: below 50 bytes its
version is empty and its tempo bits are 0, from 50 bytes on they are those the whole
buffer decodes to: the version field before its first NUL and the little-endian bits
of the tempo bytes, with the quiet bit 22 set when they hold a signalling NaN. -/
theorem decode_truncated_returns (path : String) (V T : List Byte) (ts : List track)
    (trailing : List Byte) (n : Nat) (hV : V.length = 32) (h0 : (0 : Byte) ∈ V)
    (hT : T.length = 4) (h6 : 6 ≤ n) (_hn : n < 14 + payloadSize ts) :
    ∃ p, decode path ((encodeBuffer V T ts trailing).take n) = Outcome.ok p ∧
      (n < 50 → p.Version = [] ∧ p.Tempo = 0) ∧
      (50 ≤ n → p.Version = V.takeWhile (fun b => b ≠ 0) ∧
        p.Tempo = float32Stored (leUint T)) := by
  by_cases h50 : n < 50
  · rw [decode_short path _ (take_encodeBuffer_magic V T ts trailing n h6)
      (by rw [List.length_take]; omega)]
    exact ⟨_, rfl, fun _ => ⟨rfl, rfl⟩, fun h => absurd h (by omega)⟩
  · rw [take_encodeBuffer_long V T ts trailing n hV hT (by omega),
      decode_layout path _ V T _ (bigEndian64_length _) hV hT, sliceTo_bytesIndex_mem V h0]
    exact ⟨_, rfl, fun h => absurd h h50, fun _ => ⟨rfl, rfl⟩⟩

theorem decode_truncated_returns_witness :
    ∃ p, decode "a" ((encodeBuffer exampleVersion exampleTempo [exampleTrack] []).take 60) =
        Outcome.ok p ∧
      (60 < 50 → p.Version = [] ∧ p.Tempo = 0) ∧
      (50 ≤ 60 → p.Version = exampleVersion.takeWhile (fun b => b ≠ 0) ∧
        p.Tempo = float32Stored (leUint exampleTempo)) :=
  decode_truncated_returns "a" exampleVersion exampleTempo [exampleTrack] [] 60
    (by decide) (by decide) (by decide) (by decide) (by decide)

/-- C4, counterexample: two buffers with valid magic and payload size 57 that agree on
their first `14 + 57 = 71` bytes and differ in the byte at offset 71 decode to
different patterns: the record declares a 1-byte name, so its last step byte is read
from beyond the payload. -/
theorem decode_trailing_counterexample :
    (overrunBuffer 0).take 6 = ascii "SPLICE" ∧ (overrunBuffer 1).take 6 = ascii "SPLICE" ∧
      beUint (((overrunBuffer 0).drop 6).take 8) = 57 ∧
      beUint (((overrunBuffer 1).drop 6).take 8) = 57 ∧
      (overrunBuffer 0).take (6 + 8 + 57) = (overrunBuffer 1).take (6 + 8 + 57) ∧
      6 + 8 + 57 ≤ (overrunBuffer 0).length ∧ 6 + 8 + 57 ≤ (overrunBuffer 1).length ∧
      decode "a" (overrunBuffer 0) ≠ decode "a" (overrunBuffer 1) := by
  refine ⟨by decide, by decide, by decide, by decide, by decide, by decide, by decide, ?_⟩
  have h0 : decode "a" (overrunBuffer 0) = Outcome.ok ⟨ascii "0.808-alpha", 1123024896,
      [⟨0, ascii "A", ⟨List.replicate 15 0 ++ [0], by decide⟩⟩]⟩ := by
    have hl := decode_layout "a" (bigEndian64 57) exampleVersion exampleTempo
      ([0] ++ bigEndian32 1 ++ ascii "A" ++ List.replicate 15 0 ++ [0])
      (by decide) (by decide) (by decide)
    rw [sliceTo_bytesIndex_mem _ (by decide), trackLoop_of_runLoop 1 _
      ⟨[], -5, [⟨0, ascii "A", ⟨List.replicate 15 0 ++ [0], by decide⟩⟩]⟩ (by decide)] at hl
    simpa [overrunBuffer, List.append_assoc] using hl
  have h1 : decode "a" (overrunBuffer 1) = Outcome.ok ⟨ascii "0.808-alpha", 1123024896,
      [⟨0, ascii "A", ⟨List.replicate 15 0 ++ [1], by decide⟩⟩]⟩ := by
    have hl := decode_layout "a" (bigEndian64 57) exampleVersion exampleTempo
      ([0] ++ bigEndian32 1 ++ ascii "A" ++ List.replicate 15 0 ++ [1])
      (by decide) (by decide) (by decide)
    rw [sliceTo_bytesIndex_mem _ (by decide), trackLoop_of_runLoop 1 _
      ⟨[], -5, [⟨0, ascii "A", ⟨List.replicate 15 0 ++ [1], by decide⟩⟩]⟩ (by decide)] at hl
    simpa [overrunBuffer, List.append_assoc] using hl
  rw [h0, h1]
  decide

/-- C4, amended: two well-formed buffers (the payload is the 36 header bytes followed by
complete track records that fill it exactly) that differ only in the bytes after the
payload decode to the same result. -/
theorem decode_trailing_ignored (path : String) (V T : List Byte) (ts : List track)
    (tr1 tr2 : List Byte) (hV : V.length = 32) (hT : T.length = 4)
    (hn : ∀ t ∈ ts, 21 + t.Name.length < 2 ^ 32) (hP : payloadSize ts < 2 ^ 63) :
    decode path (encodeBuffer V T ts tr1) = decode path (encodeBuffer V T ts tr2) := by
  rw [decode_encodeBuffer_gen path V T ts tr1 hV hT (by simpa using hn) (by simpa using hP),
    decode_encodeBuffer_gen path V T ts tr2 hV hT (by simpa using hn) (by simpa using hP)]

theorem decode_trailing_ignored_witness :
    decode "a" (encodeBuffer exampleVersion exampleTempo [exampleTrack] [1, 2, 3]) =
      decode "a" (encodeBuffer exampleVersion exampleTempo [exampleTrack] [9]) :=
  decode_trailing_ignored "a" exampleVersion exampleTempo [exampleTrack] [1, 2, 3] [9]
    (by decide) (by decide) (by decide) (by decide)

/-- C6: on the 50-byte buffer `noNulBuffer` (valid magic, payload size 36, a version
field of 32 bytes `0x41`, 4 tempo bytes) `decode` panics: `bytes.Index` returns `-1`
and the slice `header.Version[:pos]` is out of range. -/
theorem decode_noNul_panics :
    noNulBuffer.take 6 = ascii "SPLICE" ∧ 50 ≤ noNulBuffer.length ∧
      (0 : Byte) ∉ (noNulBuffer.drop 14).take 32 ∧
      decode "a" noNulBuffer = Outcome.panic := by
  refine ⟨by decide, by decide, by decide, ?_⟩
  have h := decode_layout "a" (bigEndian64 36) (List.replicate 32 0x41) exampleTempo []
    (by decide) (by decide) (by decide)
  rw [sliceTo_bytesIndex_not_mem _ (by decide)] at h
  simpa [noNulBuffer] using h

/-- C7: the rendered line of a track is `(`, the decimal id, `) `, the name, a TAB,
then `|g0|g1|g2|g3|` and a newline, where each group has exactly 4 characters and the
character of step `i` (character `i mod 4` of group `i div 4`) is `-` when
`steps[i] = 0` and `x` for every other byte value; nothing follows the last `|` but
the newline. -/
theorem track_String_format (t : track) :
    ∃ g : Nat → List Byte,
      (∀ m, m < 4 → (g m).length = 4) ∧
      (∀ i, i < 16 → (g (i / 4)).get? (i % 4) =
        some (if t.Steps.at i = 0 then charByte '-' else charByte 'x')) ∧
      t.String = ascii "(" ++ decimal t.ID.val ++ ascii ") " ++ t.Name ++ ascii "\t" ++
        ascii "|" ++ g 0 ++ ascii "|" ++ g 1 ++ ascii "|" ++ g 2 ++ ascii "|" ++ g 3 ++
        ascii "|" ++ ascii "\n" := by
  refine ⟨fun m => (List.range 4).map (fun i =>
    if t.Steps.at (m * 4 + i) = 0 then charByte '-' else charByte 'x'), ?_, ?_, ?_⟩
  · intro m _
    simp
  · intro i hi
    have h4 : i / 4 * 4 + i % 4 = i := by omega
    have hlt : i % 4 < 4 := Nat.mod_lt _ (by decide)
    simp [List.get?_eq_getElem?, hlt, h4]
  · have hr : List.range 4 = [0, 1, 2, 3] := by decide
    have htab : ascii "\t|" = ascii "\t" ++ ascii "|" := by decide
    have hbar : ascii "|" = [charByte '|'] := by decide
    simp only [track.String, stepLoop_eq]
    simp only [hr, List.foldl, htab, List.map, hbar, List.append_assoc, List.cons_append,
      List.nil_append]

/-- C8: the rendering of a pattern is `Saved with HW Version: `, the version, a
newline, `Tempo: `, the formatted tempo, a newline, then the rendered lines of the
tracks in list order; so rendering tracks `ts1 ++ ts2` is rendering `ts1` followed by
the lines of `ts2`. -/
theorem Pattern_String_format (formatTempo : Nat → List Byte) :
    (∀ p : Pattern, p.String formatTempo =
      ascii "Saved with HW Version: " ++ p.Version ++ ascii "\n" ++ ascii "Tempo: " ++
        formatTempo p.Tempo ++ ascii "\n" ++ (p.Tracks.map track.String).flatten) ∧
    (∀ (v : List Byte) (tempo : Nat) (ts1 ts2 : List track),
      Pattern.String formatTempo ⟨v, tempo, ts1 ++ ts2⟩ =
        Pattern.String formatTempo ⟨v, tempo, ts1⟩ ++ (ts2.map track.String).flatten) := by
  have hnl : ascii "\nTempo: " = ascii "\n" ++ ascii "Tempo: " := by decide
  have h : ∀ p : Pattern, p.String formatTempo =
      ascii "Saved with HW Version: " ++ p.Version ++ ascii "\n" ++ ascii "Tempo: " ++
        formatTempo p.Tempo ++ ascii "\n" ++ (p.Tracks.map track.String).flatten := by
    intro p
    simp only [Pattern.String, foldl_append_flatten, hnl, List.append_assoc]
  refine ⟨h, ?_⟩
  intro v tempo ts1 ts2
  rw [h, h]
  simp [List.append_assoc]

/-- C9: the example buffer (magic, payload size 61, version `0.808-alpha`, tempo bytes
`00 00 F0 42`, one track `kick` with only its first step on) decodes successfully and
renders as the three lines of the specification, given that the tempo formatter
writes the `float32` with bits `0x42F00000` (120.0) as `120`. -/
theorem decode_render_example (path : String) (formatTempo : Nat → List Byte)
    (h120 : formatTempo 0x42F00000 = ascii "120") :
    ∃ p, decode path exampleBuffer = Outcome.ok p ∧
      p.String formatTempo = ascii
        "Saved with HW Version: 0.808-alpha\nTempo: 120\n(0) kick\t|x---|----|----|----|\n" := by
  have hb : exampleBuffer = encodeBuffer exampleVersion exampleTempo [exampleTrack] [] := by
    decide
  have hd := decode_encodeBuffer_gen path exampleVersion exampleTempo [exampleTrack] []
    (by decide) (by decide) (by decide) (by decide)
  rw [sliceTo_bytesIndex_mem _ (by decide)] at hd
  refine ⟨_, hb ▸ hd, ?_⟩
  have ht : float32Stored (leUint exampleTempo) = 0x42F00000 := by decide
  have hv : exampleVersion.takeWhile (fun b => b ≠ 0) = ascii "0.808-alpha" := by decide
  have hk : exampleTrack.String = ascii "(0) kick\t|x---|----|----|----|\n" := by decide
  simp only [Pattern.String, ht, hv, h120, List.foldl, hk]
  decide

theorem decode_render_example_witness :
    ∃ p, decode "pattern_1.splice" exampleBuffer = Outcome.ok p ∧
      p.String (fun bits => if bits = 0x42F00000 then ascii "120" else []) = ascii
        "Saved with HW Version: 0.808-alpha\nTempo: 120\n(0) kick\t|x---|----|----|----|\n" :=
  decode_render_example "pattern_1.splice"
    (fun bits => if bits = 0x42F00000 then ascii "120" else []) (by decide)

/-- C10: a buffer with valid magic, payload size exactly 36, and the 32-byte version
field (holding a NUL) and 4 tempo bytes present decodes to a pattern with no track,
whose rendering is exactly the two newline-terminated header lines. -/
theorem decode_zero_tracks (path : String) (data : List Byte)
    (hm : data.take 6 = ascii "SPLICE") (hl : 50 ≤ data.length)
    (hP : beUint ((data.drop 6).take 8) = 36)
    (h0 : (0 : Byte) ∈ (data.drop 14).take 32) :
    ∃ p, decode path data = Outcome.ok p ∧ p.Tracks = [] ∧
      ∀ formatTempo : Nat → List Byte, p.String formatTempo =
        ascii "Saved with HW Version: " ++ p.Version ++ ascii "\n" ++
          (ascii "Tempo: " ++ formatTempo p.Tempo ++ ascii "\n") := by
  have hrest : wrapInt64 (wrapInt64 ((36 : Nat) : Int) - 40) = -4 := by decide
  rw [decode_long path data hm hl, sliceTo_bytesIndex_mem _ h0, hP, hrest,
    trackLoop_nonpos _ (by show ¬ (0 : Int) < -4; decide)]
  refine ⟨_, rfl, rfl, ?_⟩
  intro formatTempo
  have hnl : ascii "\nTempo: " = ascii "\n" ++ ascii "Tempo: " := by decide
  simp only [Pattern.String, List.foldl, hnl, List.append_assoc]

theorem decode_zero_tracks_witness :
    ∃ p, decode "a" (exampleBuffer.take 13 ++ [36] ++ exampleBuffer.drop 14) = Outcome.ok p ∧
      p.Tracks = [] ∧
      ∀ formatTempo : Nat → List Byte, p.String formatTempo =
        ascii "Saved with HW Version: " ++ p.Version ++ ascii "\n" ++
          (ascii "Tempo: " ++ formatTempo p.Tempo ++ ascii "\n") :=
  decode_zero_tracks "a" (exampleBuffer.take 13 ++ [36] ++ exampleBuffer.drop 14)
    (by decide) (by decide) (by decide) (by decide)

/-- C11: the label (path) does not influence decoding: for every buffer and every two
labels the two calls agree on returning a pattern, on panicking and on returning an
error; they are the same outcome unless an error is returned, whose text alone carries
the label. -/
theorem decode_label_independent (l1 l2 : String) (data : List Byte) :
    (∀ p, decode l1 data = Outcome.ok p ↔ decode l2 data = Outcome.ok p) ∧
      (decode l1 data = Outcome.panic ↔ decode l2 data = Outcome.panic) ∧
      ((∃ m, decode l1 data = Outcome.err m) ↔ ∃ m, decode l2 data = Outcome.err m) ∧
      ((∀ m, decode l1 data ≠ Outcome.err m) → decode l1 data = decode l2 data) := by
  by_cases h : data.length < 6 ∨ data.take 6 ≠ ascii "SPLICE"
  · have e1 := decode_of_bad_magic l1 data h
    have e2 := decode_of_bad_magic l2 data h
    refine ⟨fun p => ?_, ?_, ?_, fun hne => absurd e1 (hne _)⟩
    · rw [e1, e2]; simp
    · rw [e1, e2]; simp
    · rw [e1, e2]; simp
  · have e := (decode_of_magic l1 l2 data h).1
    refine ⟨fun p => by rw [e], by rw [e], by rw [e], fun _ => e⟩

/-- C12: on the buffers `shortPayloadBuffer 37` and `shortPayloadBuffer 40` (valid
magic, payload size 37 or 40, a version field holding a NUL, one complete track record
after the 50-byte header) `decode` returns an empty track list: the countdown starts
at `dataSize - (32 + 8)`, not at `dataSize - 36`, and is not positive. -/
theorem decode_short_payload_no_track :
    (shortPayloadBuffer 40).take 6 = ascii "SPLICE" ∧
      beUint (((shortPayloadBuffer 37).drop 6).take 8) = 37 ∧
      beUint (((shortPayloadBuffer 40).drop 6).take 8) = 40 ∧
      (0 : Byte) ∈ ((shortPayloadBuffer 40).drop 14).take 32 ∧
      (shortPayloadBuffer 37).drop 50 = encodeTrack exampleTrack ∧
      (shortPayloadBuffer 40).drop 50 = encodeTrack exampleTrack ∧
      decode "a" (shortPayloadBuffer 37) = Outcome.ok ⟨ascii "0.808-alpha", 1123024896, []⟩ ∧
      decode "a" (shortPayloadBuffer 40) = Outcome.ok ⟨ascii "0.808-alpha", 1123024896, []⟩ := by
  refine ⟨by decide, by decide, by decide, by decide, by decide, by decide, ?_, ?_⟩
  · have h := decode_layout "a" (bigEndian64 37) exampleVersion exampleTempo
      (encodeTrack exampleTrack) (by decide) (by decide) (by decide)
    have hrest : wrapInt64 (wrapInt64 ((beUint (bigEndian64 37) : Nat) : Int) - 40) = -3 := by
      decide
    rw [sliceTo_bytesIndex_mem _ (by decide), hrest,
      trackLoop_nonpos _ (by show ¬ (0 : Int) < -3; decide)] at h
    exact h
  · have h := decode_layout "a" (bigEndian64 40) exampleVersion exampleTempo
      (encodeTrack exampleTrack) (by decide) (by decide) (by decide)
    have hrest : wrapInt64 (wrapInt64 ((beUint (bigEndian64 40) : Nat) : Int) - 40) = 0 := by
      decide
    rw [sliceTo_bytesIndex_mem _ (by decide), hrest,
      trackLoop_nonpos _ (by show ¬ (0 : Int) < 0; decide)] at h
    exact h

/-- C13: a track record that declares a name of `2^32 - 21` bytes leaves the countdown
unchanged (17 stays 17), and one that declares `2^32 - 1` bytes lowers it by 20 only:
the sum `1 + 4 + nameSize + 16` is taken in `uint32`.  On `wrapNameBuffer` (payload
size 57) the loop therefore runs a second time and `decode` returns two tracks. -/
theorem decode_nameSize_wraps :
    beUint [0xFF, 0xFF, 0xFF, 0xEB] = 2 ^ 32 - 21 ∧
      (loopBody ⟨[0, 0xFF, 0xFF, 0xFF, 0xEB], 17, []⟩).rest = 17 ∧
      (loopBody ⟨[0, 0xFF, 0xFF, 0xFF, 0xFF], 17, []⟩).rest = -3 ∧
      ∃ p, decode "a" wrapNameBuffer = Outcome.ok p ∧ p.Tracks.length = 2 := by
  have hsz : (readTrack [0, 0xFF, 0xFF, 0xFF, 0xEB]).2.1 = 4294967275 := by
    have h := readTrack_nameSize 0 [0xFF, 0xFF, 0xFF, 0xEB] [] rfl
    have hv : beUint [0xFF, 0xFF, 0xFF, 0xEB] % 4294967296 = 4294967275 := by decide
    rw [hv] at h
    exact h
  have hsz2 : (readTrack [0, 0xFF, 0xFF, 0xFF, 0xFF]).2.1 = 4294967295 := by
    have h := readTrack_nameSize 0 [0xFF, 0xFF, 0xFF, 0xFF] [] rfl
    have hv : beUint [0xFF, 0xFF, 0xFF, 0xFF] % 4294967296 = 4294967295 := by decide
    rw [hv] at h
    exact h
  have hrest : (loopBody ⟨[0, 0xFF, 0xFF, 0xFF, 0xEB], 17, []⟩).rest = 17 := by
    rw [loopBody_rest]
    simp only [hsz]
    decide
  have hrest2 : (loopBody ⟨[0, 0xFF, 0xFF, 0xFF, 0xFF], 17, []⟩).rest = -3 := by
    rw [loopBody_rest]
    simp only [hsz2]
    decide
  refine ⟨by decide, hrest, hrest2, ?_⟩
  have hr : (readTrack [0, 0xFF, 0xFF, 0xFF, 0xEB]).2.2 = [] :=
    readTrack_header_only 0 [0xFF, 0xFF, 0xFF, 0xEB] rfl
  have hbody : loopBody ⟨[0, 0xFF, 0xFF, 0xFF, 0xEB], 17, []⟩ =
      ⟨[], ((17 : Nat) : Int), [(readTrack [0, 0xFF, 0xFF, 0xFF, 0xEB]).1]⟩ := by
    rw [loopBody_eq]
    simp only [hr, hsz, List.nil_append]
    congr 1
  have h := decode_layout "a" (bigEndian64 57) exampleVersion exampleTempo
    [0, 0xFF, 0xFF, 0xFF, 0xEB] (by decide) (by decide) (by decide)
  have h17 : wrapInt64 (wrapInt64 ((beUint (bigEndian64 57) : Nat) : Int) - 40) = 17 := by
    decide
  rw [sliceTo_bytesIndex_mem _ (by decide), h17,
    trackLoop_pos _ (by show (0 : Int) < 17; decide), hbody,
    trackLoop_nil 17 _ (by decide)] at h
  exact ⟨_, h, by simp⟩

/-- C14: the loop `for rest > 0` ends from every state, after at most
`rest + len(reader)` iterations, in the state `trackLoop` computes.  A non-zero name
size comes with a shorter reader, and on an exhausted reader an iteration leaves the
reader empty and lowers the countdown by exactly 21. -/
theorem trackLoop_terminates (s : LoopState) :
    (∃ n, n ≤ s.rest.toNat + s.r.length ∧ runLoop n s = some (trackLoop s)) ∧
      ((readTrack s.r).2.1 ≠ 0 → (loopBody s).r.length < s.r.length) ∧
      (s.r = [] → (loopBody s).r = [] ∧ (loopBody s).rest = wrapInt64 (s.rest - 21)) := by
  refine ⟨⟨_, le_refl _, runLoop_of_measure _ s (le_refl _)⟩, ?_, ?_⟩
  · intro h
    exact readTrack_nameSize_pos s.r h
  · intro h
    have e : s = ⟨[], s.rest, s.tracks⟩ := by
      cases s
      simp only at h
      subst h
      rfl
    rw [e, loopBody_nil]
    exact ⟨rfl, rfl⟩

theorem trackLoop_terminates_witness :
    (∃ n, n ≤ 21 ∧ runLoop n ⟨[], 21, []⟩ = some (trackLoop ⟨[], 21, []⟩)) ∧
      (loopBody ⟨[], 21, []⟩).r = [] ∧ (loopBody ⟨[], 21, []⟩).rest = 0 :=
  ⟨(trackLoop_terminates ⟨[], 21, []⟩).1, (trackLoop_terminates ⟨[], 21, []⟩).2.2 rfl⟩

/-- C15: `decode` returns an error exactly when the buffer has fewer than 6 bytes or
does not start with `SPLICE`; with valid magic, whenever it returns (it does not
panic), it returns a pattern and no error, however short the buffer. -/
theorem decode_error_iff (path : String) (data : List Byte) :
    ((∃ m, decode path data = Outcome.err m) ↔
        (data.length < 6 ∨ data.take 6 ≠ ascii "SPLICE")) ∧
      (¬ (data.length < 6 ∨ data.take 6 ≠ ascii "SPLICE") →
        decode path data ≠ Outcome.panic → ∃ p, decode path data = Outcome.ok p) := by
  by_cases h : data.length < 6 ∨ data.take 6 ≠ ascii "SPLICE"
  · exact ⟨⟨fun _ => h, fun _ => ⟨_, decode_of_bad_magic path data h⟩⟩, fun hn => absurd h hn⟩
  · have hc := (decode_of_magic path path data h).2
    refine ⟨⟨fun ⟨m, hm⟩ => ?_, fun hg => absurd hg h⟩, fun _ hp => ?_⟩
    · rcases hc with hc | ⟨p, hc⟩
      · rw [hc] at hm; cases hm
      · rw [hc] at hm; cases hm
    · rcases hc with hc | hc
      · exact absurd hc hp
      · exact hc

theorem decode_error_iff_witness :
    ((∃ m, decode "a" (ascii "SPLICE") = Outcome.err m) ↔
        ((ascii "SPLICE").length < 6 ∨ (ascii "SPLICE").take 6 ≠ ascii "SPLICE")) ∧
      ∃ p, decode "a" (ascii "SPLICE") = Outcome.ok p :=
  ⟨(decode_error_iff "a" (ascii "SPLICE")).1,
    (decode_error_iff "a" (ascii "SPLICE")).2 (by decide)
      (by rw [decode_short "a" _ (by decide) (by decide)]; exact fun h => Outcome.noConfusion h)⟩

/-- C16: with valid magic, a buffer of fewer than 14 bytes decodes to an empty version,
tempo bits 0 and no track; a buffer of 14 to 49 bytes whose payload size `P` satisfies
`40 < P < 2^63` decodes to an empty version, tempo bits 0 and exactly
`ceil((P - 40) / 21)` tracks, each with id 0, an empty name and 16 zero steps, whatever
the bytes from offset 14 on. -/
theorem decode_unread_fields_zero (path : String) (data : List Byte)
    (hm : data.take 6 = ascii "SPLICE") :
    (data.length < 14 → decode path data = Outcome.ok ⟨[], 0, []⟩) ∧
      (14 ≤ data.length → data.length < 50 → 40 < beUint ((data.drop 6).take 8) →
        beUint ((data.drop 6).take 8) < 2 ^ 63 →
        decode path data = Outcome.ok ⟨[], 0,
          List.replicate ((beUint ((data.drop 6).take 8) - 40 + 20) / 21)
            ⟨0, [], Steps.zero⟩⟩) := by
  constructor
  · intro h14
    have h40 : wrapInt64 ((0 : Int) - 40) = -40 := by decide
    rw [decode_short path data hm (by omega), if_neg (by omega), h40,
      trackLoop_nonpos _ (by show ¬ (0 : Int) < -40; decide)]
  · intro h14 h50 hlo hhi
    norm_num at hhi
    have hw1 : wrapInt64 ((beUint ((data.drop 6).take 8) : Nat) : Int) =
        (beUint ((data.drop 6).take 8) : Nat) := wrapInt64_of_range _ (by omega) (by omega)
    have hw2 : wrapInt64 (((beUint ((data.drop 6).take 8) : Nat) : Int) - 40) =
        ((beUint ((data.drop 6).take 8) - 40 : Nat) : Int) := by
      rw [wrapInt64_of_range _ (by omega) (by omega)]
      omega
    rw [decode_short path data hm h50, if_pos h14, hw1, hw2,
      trackLoop_nil _ [] (by omega)]
    simp

theorem decode_unread_fields_zero_witness :
    decode "a" (exampleBuffer.take 10) = Outcome.ok ⟨[], 0, []⟩ ∧
      decode "a" (exampleBuffer.take 30) = Outcome.ok ⟨[], 0,
        List.replicate ((beUint (((exampleBuffer.take 30).drop 6).take 8) - 40 + 20) / 21)
          ⟨0, [], Steps.zero⟩⟩ :=
  ⟨(decode_unread_fields_zero "a" (exampleBuffer.take 10) (by decide)).1 (by decide),
    (decode_unread_fields_zero "a" (exampleBuffer.take 30) (by decide)).2
      (by decide) (by decide) (by decide) (by decide)⟩

/-- C17: on the 50-byte buffer `negPayloadBuffer` (valid magic, payload size `-2^63`,
a version field holding a NUL) the subtraction `dataSize - (32 + 8)` wraps around to
`2^63 - 40`, the loop runs, and `decode` returns 439208192231179799 all-zero tracks
instead of none. -/
theorem decode_negative_payload_wraps :
    negPayloadBuffer.take 6 = ascii "SPLICE" ∧
      wrapInt64 (beUint ((negPayloadBuffer.drop 6).take 8)) = -9223372036854775808 ∧
      (0 : Byte) ∈ (negPayloadBuffer.drop 14).take 32 ∧
      wrapInt64 (-9223372036854775808 - (32 + 8)) = 9223372036854775768 ∧
      decode "a" negPayloadBuffer = Outcome.ok ⟨ascii "0.808-alpha", 1123024896,
        List.replicate 439208192231179799 ⟨0, [], Steps.zero⟩⟩ := by
  refine ⟨by decide, by decide, by decide, by decide, ?_⟩
  have h := decode_layout "a" [0x80, 0, 0, 0, 0, 0, 0, 0] exampleVersion exampleTempo []
    (by decide) (by decide) (by decide)
  have hrest : wrapInt64 (wrapInt64 ((beUint [0x80, 0, 0, 0, 0, 0, 0, 0] : Nat) : Int) - 40) =
      ((9223372036854775768 : Nat) : Int) := by decide
  have hk : (9223372036854775768 + 20) / 21 = 439208192231179799 := by decide
  rw [sliceTo_bytesIndex_mem _ (by decide), hrest,
    trackLoop_nil 9223372036854775768 [] (by decide), hk] at h
  exact h

end drum
